import Mathlib

/-!
Verification of the `handlebars_helper!` macro (src/macros.rs of
handlebars-rust): a shallow embedding of the code the macro generates for a
helper specification, together with theorems about its binding, variadic
capture, error and result-wrapping behaviour.

The generated `call_inner` is parameterised by the helper specification
(positional parameter list, hash parameter list with default literals,
optional `*args` / `**kwargs` captures, body).  The embedding represents that
specification as data (`HelperSpec`) and the generated code as one function
(`callInner`) interpreting it, exactly as the macro's template would expand:
the same sequence of binding steps, the same short-circuit on the first
failing step, the same error contents, the same `Ok(Some(Derived(..)))`
wrapping of the body's result.
-/

/-- The internal representation of a `serde_json` number: an unsigned 64-bit
integer, a negative signed 64-bit integer, or a float.  The float payload is
abstracted as a rational; no claim depends on float arithmetic. -/
inductive JsonNumber where
  | posInt (n : Nat)
  | negInt (i : Int)
  | float (q : Rat)
deriving DecidableEq

/-- The dynamic value model (`serde_json::Value`): null, boolean, number,
string, array, object.  Objects are association lists of string keys. -/
inductive JsonValue where
  | null
  | bool (b : Bool)
  | num (n : JsonNumber)
  | str (s : String)
  | arr (elems : List JsonValue)
  | obj (entries : List (String × JsonValue))

/-- `Number::as_i64`: succeeds for any negative integer and for an unsigned
integer that fits in `i64`. -/
def JsonNumber.as_i64 : JsonNumber → Option Int
  | .posInt n => if n ≤ 2 ^ 63 - 1 then some (n : Int) else none
  | .negInt i => some i
  | .float _ => none

/-- `Number::as_u64`: succeeds only for the unsigned representation. -/
def JsonNumber.as_u64 : JsonNumber → Option Nat
  | .posInt n => some n
  | .negInt _ => none
  | .float _ => none

/-- `Number::as_f64`: succeeds for every number (the integer-to-float
conversion is modelled exactly, as a rational). -/
def JsonNumber.as_f64 : JsonNumber → Option Rat
  | .posInt n => some (n : Rat)
  | .negInt i => some (i : Rat)
  | .float q => some q

/-- `Value::as_object`. -/
def JsonValue.as_object : JsonValue → Option (List (String × JsonValue))
  | .obj entries => some entries
  | _ => none

/-- `Value::as_array`. -/
def JsonValue.as_array : JsonValue → Option (List JsonValue)
  | .arr elems => some elems
  | _ => none

/-- `Value::as_str`. -/
def JsonValue.as_str : JsonValue → Option String
  | .str s => some s
  | _ => none

/-- `Value::as_i64`. -/
def JsonValue.as_i64 : JsonValue → Option Int
  | .num n => n.as_i64
  | _ => none

/-- `Value::as_u64`. -/
def JsonValue.as_u64 : JsonValue → Option Nat
  | .num n => n.as_u64
  | _ => none

/-- `Value::as_f64`. -/
def JsonValue.as_f64 : JsonValue → Option Rat
  | .num n => n.as_f64
  | _ => none

/-- `Value::as_bool`. -/
def JsonValue.as_bool : JsonValue → Option Bool
  | .bool b => some b
  | _ => none

/-- `Value::as_null`. -/
def JsonValue.as_null : JsonValue → Option Unit
  | .null => some ()
  | _ => none

/-- The type tags accepted by the macro's `@as_json_value` arms. -/
inductive Tpe where
  | object
  | array
  | str
  | i64
  | u64
  | f64
  | bool
  | null
  | Json
deriving DecidableEq

/-- `stringify!($tpe)`: the literal spelling of a type tag, as interpolated
into error messages. -/
def tpeName : Tpe → String
  | .object => "object"
  | .array => "array"
  | .str => "str"
  | .i64 => "i64"
  | .u64 => "u64"
  | .f64 => "f64"
  | .bool => "bool"
  | .null => "null"
  | .Json => "Json"

/-- The typed output of a successful coercion: each accessor's result type,
plus `vJson` for the passthrough arm, which keeps the raw dynamic value. -/
inductive TypedVal where
  | vObject (entries : List (String × JsonValue))
  | vArray (elems : List JsonValue)
  | vStr (s : String)
  | vI64 (i : Int)
  | vU64 (n : Nat)
  | vF64 (q : Rat)
  | vBool (b : Bool)
  | vNull
  | vJson (v : JsonValue)

/-- The macro's `@as_json_value` dispatch: one accessor per type tag; the
`Json` arm is `Some($x)`, returning the raw value with no coercion. -/
def as_json_value (x : JsonValue) : Tpe → Option TypedVal
  | .object => x.as_object.map TypedVal.vObject
  | .array => x.as_array.map TypedVal.vArray
  | .str => x.as_str.map TypedVal.vStr
  | .i64 => x.as_i64.map TypedVal.vI64
  | .u64 => x.as_u64.map TypedVal.vU64
  | .f64 => x.as_f64.map TypedVal.vF64
  | .bool => x.as_bool.map TypedVal.vBool
  | .null => x.as_null.map (fun _ => TypedVal.vNull)
  | .Json => some (TypedVal.vJson x)

/-- A declared positional parameter: `$name: $tpe`. -/
structure PosParam where
  name : String
  tpe : Tpe

/-- A declared hash (named) parameter: `$hash_name: $hash_tpe = $dft_val`.
The default literal is stored pre-converted into the dynamic value model. -/
structure HashParam where
  name : String
  tpe : Tpe
  dft : JsonValue

/-- The value a parameter is bound to: either the typed output of a
successful coercion of a supplied argument, or — for an omitted hash
parameter — the declared default literal used directly, with no coercion
applied (the macro's `unwrap_or_else(|| Ok($dft_val))`). -/
inductive BoundVal where
  | coerced (tv : TypedVal)
  | dflt (v : JsonValue)

/-- The invocation record the generated code reads: the ordered positional
argument values (`h.param(i, ..)` / `h.params(..)`) and the supplied hash
arguments (`h.hash_get(k, ..)` / `h.hash(..)`), already resolved.  The hash
list is in call-site supply order; the engine guarantees distinct keys. -/
structure HelperInvocation where
  params : List JsonValue
  hash : List (String × JsonValue)

/-- `h.hash_get(k, ..)`: lookup of a named argument by key. -/
def HelperInvocation.hashGet (inv : HelperInvocation) (k : String) : Option JsonValue :=
  (inv.hash.find? (fun kv => kv.1 == k)).map Prod.snd

/-- The errors the generated code can raise, with exactly the data the
macro's format strings interpolate: helper name and parameter name for a
missing positional argument; additionally the spelled type tag, the offending
raw value and the full supplied parameter (resp. hash) list for a coercion
failure. -/
inductive RenderError where
  | missingParameter (helper param : String)
  | typeMismatch (helper param tpeStr : String) (value : JsonValue)
      (allParams : List JsonValue)
  | hashTypeMismatch (helper hashName tpeStr : String) (value : JsonValue)
      (allHash : List (String × JsonValue))

/-- The engine's result value wrapper: the macro always produces the
`Derived` variant (a freshly owned value); `context` stands for the
borrowed-from-context variants the macro never produces. -/
inductive ScopedJson where
  | derived (v : JsonValue)
  | context (v : JsonValue)

/-- The bound locals visible to the body after all binding steps succeed:
the typed positional bindings in declaration order, the hash bindings in
declaration order, and the optional `*args` / `**kwargs` captures. -/
structure Env where
  positional : List TypedVal
  hash : List BoundVal
  args : Option (List JsonValue)
  kwargs : Option (List (String × JsonValue))

/-- A helper specification, as matched by the macro: name, positional
parameters, hash parameters, whether `*args` / `**kwargs` captures are
declared, and the body.  The body is modelled as already producing a dynamic
value (absorbing the Rust side's `JsonValue::from` on its native result). -/
structure HelperSpec where
  name : String
  positional : List PosParam
  hashParams : List HashParam
  hasArgs : Bool
  hasKwargs : Bool
  body : Env → JsonValue

/-- One positional binding step at index `idx` (the macro's per-parameter
block): fetch the `idx`-th argument, failing with the "Couldn't read
parameter" error when absent; then coerce it with `@as_json_value`, failing
with the "Couldn't convert parameter" error — which carries the raw value and
`h.params(..)` — when the accessor returns absent. -/
def posStep (h : String) (inv : HelperInvocation) (p : PosParam) (idx : Nat) :
    Except RenderError TypedVal :=
  match inv.params.get? idx with
  | none => .error (.missingParameter h p.name)
  | some v =>
    match as_json_value v p.tpe with
    | none => .error (.typeMismatch h p.name (tpeName p.tpe) v inv.params)
    | some tv => .ok tv

/-- The positional binding phase: the steps in declaration order, indices
counting up from `idx`, aborting at the first failing step. -/
def bindPositionals (h : String) (inv : HelperInvocation) :
    List PosParam → Nat → Except RenderError (List TypedVal)
  | [], _ => .ok []
  | p :: rest, idx =>
    match posStep h inv p idx with
    | .error e => .error e
    | .ok tv =>
      match bindPositionals h inv rest (idx + 1) with
      | .error e => .error e
      | .ok tvs => .ok (tv :: tvs)

/-- One hash binding step: look the key up with `h.hash_get`; if supplied,
coerce it, failing with the "Couldn't convert hash" error — which carries the
raw value and `h.hash(..)` — when the accessor returns absent; if absent,
bind the declared default literal directly (`unwrap_or_else(|| Ok($dft_val))`)
with no coercion applied. -/
def bindOneHash (h : String) (inv : HelperInvocation) (hp : HashParam) :
    Except RenderError BoundVal :=
  match inv.hashGet hp.name with
  | some v =>
    match as_json_value v hp.tpe with
    | none => .error (.hashTypeMismatch h hp.name (tpeName hp.tpe) v inv.hash)
    | some tv => .ok (.coerced tv)
  | none => .ok (.dflt hp.dft)

/-- The hash binding phase: the steps in declaration order, aborting at the
first failing step. -/
def bindHashes (h : String) (inv : HelperInvocation) :
    List HashParam → Except RenderError (List BoundVal)
  | [] => .ok []
  | hp :: rest =>
    match bindOneHash h inv hp with
    | .error e => .error e
    | .ok b =>
      match bindHashes h inv rest with
      | .error e => .error e
      | .ok bs => .ok (b :: bs)

/-- Insertion into a `BTreeMap` modelled as a key-sorted association list:
strictly before the first larger key, replacing an equal key.  Keys are
compared in lexicographic order (the comparison is phrased on the underlying
character lists, which is exactly the string order, so that it computes). -/
def btreeInsert (k : String) (v : JsonValue) :
    List (String × JsonValue) → List (String × JsonValue)
  | [] => [(k, v)]
  | (k', v') :: rest =>
    if k.data < k'.data then (k, v) :: (k', v') :: rest
    else if k = k' then (k, v) :: rest
    else (k', v') :: btreeInsert k v rest

/-- The `**kwargs` capture: `h.hash(..).iter().collect::<BTreeMap<_, _>>()`,
i.e. the supplied hash arguments re-collected into a key-ordered map. -/
def kwargsOf (hash : List (String × JsonValue)) : List (String × JsonValue) :=
  hash.foldl (fun m kv => btreeInsert kv.1 kv.2 m) []

/-- All binding steps of `call_inner` in program order, producing the locals
the body sees: positional bindings, then hash bindings, then the `*args`
capture (all of `h.params(..)`, not just the unconsumed remainder) and the
`**kwargs` capture (the sorted map over `h.hash(..)`) when declared. -/
def bindEnv (spec : HelperSpec) (inv : HelperInvocation) : Except RenderError Env :=
  match bindPositionals spec.name inv spec.positional 0 with
  | .error e => .error e
  | .ok pos =>
    match bindHashes spec.name inv spec.hashParams with
    | .error e => .error e
    | .ok hs =>
      .ok { positional := pos
            hash := hs
            args := if spec.hasArgs then some inv.params else none
            kwargs := if spec.hasKwargs then some (kwargsOf inv.hash) else none }

/-- The generated `call_inner`: run all binding steps, propagating the first
failure as the invocation's error; on success evaluate the body on the bound
locals and return `Ok(Some(ScopedJson::Derived(JsonValue::from(result))))`. -/
def callInner (spec : HelperSpec) (inv : HelperInvocation) :
    Except RenderError (Option ScopedJson) :=
  match bindEnv spec inv with
  | .error e => .error e
  | .ok env => .ok (some (.derived (spec.body env)))

/-- The error produced by a step, `none` when the step succeeds. -/
def errOf {α : Type} : Except RenderError α → Option RenderError
  | .error e => some e
  | .ok _ => none

/-- The per-step outcomes of the positional phase, in program order. -/
def posErrs (h : String) (inv : HelperInvocation) :
    List PosParam → Nat → List (Option RenderError)
  | [], _ => []
  | p :: rest, idx => errOf (posStep h inv p idx) :: posErrs h inv rest (idx + 1)

/-- The per-step outcomes of every binding step of an invocation, in program
order: positional steps first, then hash steps. -/
def stepErrs (spec : HelperSpec) (inv : HelperInvocation) : List (Option RenderError) :=
  posErrs spec.name inv spec.positional 0 ++
    spec.hashParams.map (fun hp => errOf (bindOneHash spec.name inv hp))

/-- The first failure in a list of step outcomes. -/
def firstSome (l : List (Option RenderError)) : Option RenderError :=
  (l.filterMap id).head?

/-! ### Concrete sample specifications and invocations -/

/-- A helper with one named parameter `c : u64` whose default literal is the
string `"oops"` — a default that does not satisfy the `u64` accessor. -/
def c3Spec : HelperSpec :=
  ⟨"h3", [], [⟨"c", Tpe.u64, JsonValue.str "oops"⟩], false, false, fun _ => JsonValue.null⟩

/-- An invocation of `c3Spec` supplying no arguments at all. -/
def c3Inv : HelperInvocation := ⟨[], []⟩

/-- A helper declaring one positional parameter and a `*args` capture. -/
def c5Spec : HelperSpec :=
  ⟨"h5", [⟨"x", Tpe.u64⟩], [], true, false, fun _ => JsonValue.null⟩

/-- An invocation of `c5Spec` supplying three positional arguments, two more
than declared. -/
def c5Inv : HelperInvocation :=
  ⟨[JsonValue.num (.posInt 1), JsonValue.str "extra", JsonValue.null], []⟩

/-- A helper with one `u64` parameter whose body reports whether it exceeds
ten (the spec's end-to-end example). -/
def c10Spec : HelperSpec :=
  ⟨"is_above_10", [⟨"x", Tpe.u64⟩], [], false, false,
    fun env =>
      match env.positional.get? 0 with
      | some (.vU64 n) => JsonValue.bool (decide (n > 10))
      | _ => JsonValue.null⟩

/-- An invocation of `c10Spec` with the single argument `12`. -/
def c10Inv : HelperInvocation := ⟨[JsonValue.num (.posInt 12)], []⟩

/-- A helper declaring two positional `u64` parameters. -/
def c2Spec : HelperSpec :=
  ⟨"is_above", [⟨"x", Tpe.u64⟩, ⟨"y", Tpe.u64⟩], [], false, false, fun _ => JsonValue.null⟩

/-- An invocation of `c2Spec` supplying one argument — fewer than declared —
whose single supplied argument is a string, so it fails the `u64` accessor. -/
def c2Inv : HelperInvocation := ⟨[JsonValue.str "a"], []⟩

/-- An invocation of `c2Spec` supplying one well-typed argument. -/
def c2InvOk : HelperInvocation := ⟨[JsonValue.num (.posInt 5)], []⟩

/-- A helper declaring two positional `u64` parameters, for the type-mismatch
ordering claim. -/
def c6Spec : HelperSpec :=
  ⟨"h6", [⟨"x", Tpe.u64⟩, ⟨"y", Tpe.u64⟩], [], false, false, fun _ => JsonValue.null⟩

/-- An invocation of `c6Spec` in which both supplied arguments fail the
`u64` accessor. -/
def c6Inv : HelperInvocation := ⟨[JsonValue.str "a", JsonValue.str "b"], []⟩

/-- An invocation of `c6Spec` in which only the second supplied argument
fails the `u64` accessor. -/
def c6InvSnd : HelperInvocation := ⟨[JsonValue.num (.posInt 1), JsonValue.str "b"], []⟩

/-- A helper declaring one positional `u64` parameter and one hash `u64`
parameter with default `10`. -/
def c7Spec : HelperSpec :=
  ⟨"h7", [⟨"x", Tpe.u64⟩], [⟨"compare", Tpe.u64, JsonValue.num (.posInt 10)⟩],
    false, false, fun _ => JsonValue.null⟩

/-- An invocation of `c7Spec` whose positional argument fails its accessor
and whose supplied hash argument also fails its accessor. -/
def c7Inv : HelperInvocation := ⟨[JsonValue.str "a"], [("compare", JsonValue.str "b")]⟩

/-- A helper declaring only a hash `u64` parameter. -/
def c7wSpec : HelperSpec :=
  ⟨"h7w", [], [⟨"compare", Tpe.u64, JsonValue.num (.posInt 10)⟩], false, false,
    fun _ => JsonValue.null⟩

/-- An invocation of `c7wSpec` supplying a hash argument that fails the
declared `u64` accessor. -/
def c7wInv : HelperInvocation := ⟨[], [("compare", JsonValue.str "b")]⟩

/-- A helper declaring one positional `u64` parameter, invoked below with no
arguments so that binding fails. -/
def c9Spec : HelperSpec :=
  ⟨"h9", [⟨"x", Tpe.u64⟩], [], false, false, fun _ => JsonValue.null⟩

/-- An invocation of `c9Spec` supplying nothing. -/
def c9Inv : HelperInvocation := ⟨[], []⟩

/-- A helper declaring only a `**kwargs` capture. -/
def c1Spec : HelperSpec :=
  ⟨"h1", [], [], false, true, fun _ => JsonValue.null⟩

/-- An invocation of `c1Spec` supplying two hash arguments in descending
name order. -/
def c1Inv : HelperInvocation :=
  ⟨[], [("b", JsonValue.null), ("a", JsonValue.bool true)]⟩

/-- A helper declaring one positional `u64` parameter and no captures. -/
def c4Spec : HelperSpec :=
  ⟨"h4", [⟨"x", Tpe.u64⟩], [], false, false, fun _ => JsonValue.null⟩

/-- The value of a successful step, `none` when the step failed. -/
def okOf {α : Type} : Except RenderError α → Option α
  | .ok a => some a
  | .error _ => none

/-! ### Basic lemmas about the binding pipeline -/

/-- Decomposition of a successful `bindEnv`: both binding phases succeeded
and produced the environment's fields, and the captures are exactly the
declared ones. -/
theorem bindEnv_ok {spec : HelperSpec} {inv : HelperInvocation} {env : Env}
    (hok : bindEnv spec inv = .ok env) :
    bindPositionals spec.name inv spec.positional 0 = .ok env.positional ∧
    bindHashes spec.name inv spec.hashParams = .ok env.hash ∧
    env.args = (if spec.hasArgs then some inv.params else none) ∧
    env.kwargs = (if spec.hasKwargs then some (kwargsOf inv.hash) else none) := by
  unfold bindEnv at hok
  cases hpos : bindPositionals spec.name inv spec.positional 0 with
  | error e => rw [hpos] at hok; exact absurd hok (by simp)
  | ok pos =>
    rw [hpos] at hok
    cases hhash : bindHashes spec.name inv spec.hashParams with
    | error e => rw [hhash] at hok; exact absurd hok (by simp)
    | ok hs =>
      rw [hhash] at hok
      simp only [Except.ok.injEq] at hok
      subst hok
      exact ⟨rfl, rfl, rfl, rfl⟩

/-- A successful hash phase binds each declared hash parameter to the value
of its own step. -/
theorem bindHashes_ok_get {h : String} {inv : HelperInvocation} :
    ∀ {hps : List HashParam} {bs : List BoundVal},
    bindHashes h inv hps = .ok bs → ∀ {j : Nat} {hp : HashParam},
    hps.get? j = some hp →
    ∃ b, bindOneHash h inv hp = .ok b ∧ bs.get? j = some b := by
  intro hps
  induction hps with
  | nil => intro bs _ j hp hget; simp at hget
  | cons hp0 rest ih =>
    intro bs hok j hp hget
    unfold bindHashes at hok
    cases h0 : bindOneHash h inv hp0 with
    | error e => rw [h0] at hok; exact absurd hok (by simp)
    | ok b0 =>
      rw [h0] at hok
      cases hrest : bindHashes h inv rest with
      | error e => rw [hrest] at hok; exact absurd hok (by simp)
      | ok bs' =>
        rw [hrest] at hok
        simp only [Except.ok.injEq] at hok
        subst hok
        cases j with
        | zero =>
          simp only [List.get?] at hget
          cases hget
          exact ⟨b0, h0, rfl⟩
        | succ j' =>
          simp only [List.get?] at hget ⊢
          exact ih hrest hget

/-! ### C8: Json passthrough round-trip -/

/-- C8: for every dynamic value, coercion under the `Json`/passthrough type
tag always succeeds and yields exactly the original value, unmodified — the
macro's `@as_json_value $x, Json` arm is `Some($x)`. -/
theorem c8_json_passthrough_roundtrip (v : JsonValue) :
    as_json_value v Tpe.Json = some (TypedVal.vJson v) := rfl

/-! ### C3: omitted hash parameters bind the default, unchecked -/

/-- C3: when an invocation omits a declared named parameter, that parameter
binds to the declared default literal directly, with no type check applied —
the statement carries no hypothesis about `as_json_value` on the default, so
the binding succeeds even when the default fails the declared type's
accessor.  The second conjunct lifts this to the whole invocation: in any
successfully bound environment the parameter's slot holds the default. -/
theorem c3_hash_default_unchecked (h : String) (inv : HelperInvocation)
    (hp : HashParam) (habs : inv.hashGet hp.name = none) :
    bindOneHash h inv hp = .ok (.dflt hp.dft) ∧
    ∀ (spec : HelperSpec) (env : Env) (pre post : List HashParam),
      spec.hashParams = pre ++ hp :: post →
      bindEnv spec inv = .ok env → spec.name = h →
      env.hash.get? pre.length = some (.dflt hp.dft) := by
  have hbind : bindOneHash h inv hp = .ok (.dflt hp.dft) := by
    unfold bindOneHash
    rw [habs]
  refine ⟨hbind, ?_⟩
  intro spec env pre post hspec hok hname
  obtain ⟨-, hhash, -, -⟩ := bindEnv_ok hok
  rw [hname, hspec] at hhash
  have hget : (pre ++ hp :: post).get? pre.length = some hp := by
    rw [List.get?_append_right (Nat.le_refl _)]
    simp
  obtain ⟨b, hb, hbs⟩ := bindHashes_ok_get hhash hget
  rw [hbind] at hb
  cases hb
  exact hbs

/-- Witness for C3 at a concrete input whose default fails the declared
accessor: the named argument is omitted, the default does not satisfy `u64`,
and the binding still succeeds, yielding the raw default. -/
theorem c3_hash_default_unchecked_witness :
    c3Inv.hashGet "c" = none ∧
    as_json_value (JsonValue.str "oops") Tpe.u64 = none ∧
    bindOneHash "h3" c3Inv ⟨"c", Tpe.u64, JsonValue.str "oops"⟩ =
      .ok (.dflt (JsonValue.str "oops")) ∧
    List.get? [BoundVal.dflt (JsonValue.str "oops")] 0 =
      some (.dflt (JsonValue.str "oops")) :=
  ⟨rfl, rfl,
    (c3_hash_default_unchecked "h3" c3Inv ⟨"c", Tpe.u64, JsonValue.str "oops"⟩ rfl).1,
    (c3_hash_default_unchecked "h3" c3Inv ⟨"c", Tpe.u64, JsonValue.str "oops"⟩ rfl).2
      c3Spec ⟨[], [.dflt (JsonValue.str "oops")], none, none⟩ [] [] rfl rfl rfl⟩

/-! ### C5: the `*args` capture holds every supplied positional argument -/

/-- C5: when a helper declares a `*args` capture and the binding pipeline
succeeds, the captured sequence is exactly `h.params(..)` — all positional
arguments supplied at the call site in call order, including those already
consumed by declared positional parameters — so its length equals the
supplied count, regardless of how many positional parameters are declared. -/
theorem c5_args_capture_full (spec : HelperSpec) (inv : HelperInvocation)
    (env : Env) (hargs : spec.hasArgs = true) (hok : bindEnv spec inv = .ok env) :
    env.args = some inv.params ∧
    ∀ l, env.args = some l → l.length = inv.params.length := by
  obtain ⟨-, -, ha, -⟩ := bindEnv_ok hok
  rw [hargs] at ha
  simp only [if_pos] at ha
  refine ⟨ha, ?_⟩
  intro l hl
  rw [ha] at hl
  cases hl
  rfl

/-- Witness for C5: one declared parameter, three supplied arguments; the
capture holds all three in call order. -/
theorem c5_args_capture_full_witness :
    c5Spec.hasArgs = true ∧
    bindEnv c5Spec c5Inv =
      .ok ⟨[.vU64 1], [], some c5Inv.params, none⟩ ∧
    Env.args ⟨[.vU64 1], [], some c5Inv.params, none⟩ = some c5Inv.params ∧
    c5Inv.params.length = 3 :=
  ⟨rfl, rfl,
    (c5_args_capture_full c5Spec c5Inv ⟨[.vU64 1], [], some c5Inv.params, none⟩
      rfl rfl).1, rfl⟩

/-! ### C10: successful invocations always return a present, derived value -/

/-- C10: when every binding step succeeds, `call_inner` returns
`Ok(Some(Derived(body-result)))` — the body's return converted into the
dynamic value model and tagged as freshly derived; conversely every success
result is of that shape, so the empty success `Ok(None)` is never produced by
a macro-generated helper. -/
theorem c10_success_always_derived (spec : HelperSpec) (inv : HelperInvocation) :
    (∀ env, bindEnv spec inv = .ok env →
      callInner spec inv = .ok (some (.derived (spec.body env)))) ∧
    ∀ r, callInner spec inv = .ok r →
      ∃ env, bindEnv spec inv = .ok env ∧ r = some (.derived (spec.body env)) := by
  constructor
  · intro env hok
    unfold callInner
    rw [hok]
  · intro r hr
    unfold callInner at hr
    cases he : bindEnv spec inv with
    | error e => rw [he] at hr; exact absurd hr (by simp)
    | ok env =>
      rw [he] at hr
      simp only [Except.ok.injEq] at hr
      exact ⟨env, rfl, hr.symm⟩

/-- Witness for C10: the fully successful invocation returns
`Ok(Some(Derived(true)))`, a present, derived value. -/
theorem c10_success_always_derived_witness :
    callInner c10Spec c10Inv = .ok (some (.derived (JsonValue.bool true))) :=
  (c10_success_always_derived c10Spec c10Inv).1
    ⟨[.vU64 12], [], none, none⟩ rfl

/-! ### First-failure lemmas -/

/-- A step's recorded outcome is an error exactly when the step failed. -/
theorem errOf_eq_some {α : Type} {x : Except RenderError α} {e : RenderError} :
    errOf x = some e ↔ x = .error e := by
  cases x <;> simp [errOf]

/-- A step's recorded outcome is `none` exactly when the step succeeded. -/
theorem errOf_eq_none {α : Type} {x : Except RenderError α} :
    errOf x = none ↔ ∃ a, x = .ok a := by
  cases x <;> simp [errOf]

/-- The positional phase fails with the error of step `i` whenever step `i`
fails and every earlier step succeeds. -/
theorem bindPositionals_error_at {h : String} {inv : HelperInvocation} :
    ∀ (ps : List PosParam) (idx i : Nat) (p : PosParam) (e : RenderError),
    ps.get? i = some p → errOf (posStep h inv p (idx + i)) = some e →
    (∀ j pj, j < i → ps.get? j = some pj → errOf (posStep h inv pj (idx + j)) = none) →
    bindPositionals h inv ps idx = .error e := by
  intro ps
  induction ps with
  | nil => intro idx i p e hget; simp at hget
  | cons p0 rest ih =>
    intro idx i p e hget hfail hpre
    cases i with
    | zero =>
      simp only [List.get?] at hget
      cases hget
      rw [errOf_eq_some, Nat.add_zero] at hfail
      unfold bindPositionals
      rw [hfail]
    | succ i' =>
      have h0 : errOf (posStep h inv p0 (idx + 0)) = none := by
        exact hpre 0 p0 (Nat.succ_pos i') rfl
      rw [errOf_eq_none] at h0
      obtain ⟨tv, htv⟩ := h0
      rw [Nat.add_zero] at htv
      have hrest : bindPositionals h inv rest (idx + 1) = .error e := by
        refine ih (idx + 1) i' p e hget ?_ ?_
        · have : idx + 1 + i' = idx + (i' + 1) := by omega
          rw [this]
          exact hfail
        · intro j pj hj hgj
          have : idx + 1 + j = idx + (j + 1) := by omega
          rw [this]
          exact hpre (j + 1) pj (Nat.succ_lt_succ hj) hgj
      unfold bindPositionals
      rw [htv, hrest]

/-- The hash phase fails with the error of a given step whenever that step
fails and every earlier hash step succeeds. -/
theorem bindHashes_error_at {h : String} {inv : HelperInvocation} :
    ∀ (pre : List HashParam) (hp : HashParam) (post : List HashParam) (e : RenderError),
    (∀ hp' ∈ pre, errOf (bindOneHash h inv hp') = none) →
    bindOneHash h inv hp = .error e →
    bindHashes h inv (pre ++ hp :: post) = .error e := by
  intro pre
  induction pre with
  | nil =>
    intro hp post e _ hfail
    rw [List.nil_append]
    unfold bindHashes
    rw [hfail]
  | cons hp0 rest ih =>
    intro hp post e hpre hfail
    have h0 : errOf (bindOneHash h inv hp0) = none := hpre hp0 (List.mem_cons_self hp0 rest)
    rw [errOf_eq_none] at h0
    obtain ⟨b0, hb0⟩ := h0
    have hrest : bindHashes h inv (rest ++ hp :: post) = .error e :=
      ih hp post e (fun hp' hmem => hpre hp' (List.mem_cons_of_mem hp0 hmem)) hfail
    rw [List.cons_append]
    unfold bindHashes
    rw [hb0, hrest]

/-- A failing positional phase is the whole invocation's error result. -/
theorem callInner_error_of_pos {spec : HelperSpec} {inv : HelperInvocation}
    {e : RenderError} (hpos : bindPositionals spec.name inv spec.positional 0 = .error e) :
    callInner spec inv = .error e := by
  unfold callInner bindEnv
  rw [hpos]

/-- When the positional phase succeeds, a failing hash phase is the whole
invocation's error result. -/
theorem callInner_error_of_hash {spec : HelperSpec} {inv : HelperInvocation}
    {l : List TypedVal} {e : RenderError}
    (hpos : bindPositionals spec.name inv spec.positional 0 = .ok l)
    (hhash : bindHashes spec.name inv spec.hashParams = .error e) :
    callInner spec inv = .error e := by
  unfold callInner bindEnv
  rw [hpos, hhash]

/-! ### C2: missing positional arguments -/

/-- C2 counterexample: the claim says every invocation supplying fewer than
the declared number of positional arguments fails with `MissingParameter`.
Here `is_above` declares two `u64` parameters and is invoked with the single
argument `"a"`: fewer than declared, yet the invocation fails with the
type-mismatch error for the first parameter, not with `MissingParameter`. -/
theorem c2_missing_parameter_counterexample :
    c2Inv.params.length < c2Spec.positional.length ∧
    callInner c2Spec c2Inv =
      .error (.typeMismatch "is_above" "x" "u64" (JsonValue.str "a") [JsonValue.str "a"]) ∧
    ∀ hn pn, callInner c2Spec c2Inv ≠ .error (.missingParameter hn pn) := by
  refine ⟨by decide, rfl, ?_⟩
  intro hn pn hc
  rw [show callInner c2Spec c2Inv =
    .error (.typeMismatch "is_above" "x" "u64" (JsonValue.str "a") [JsonValue.str "a"])
    from rfl] at hc
  simp at hc

/-- C2 (amended): an invocation supplying fewer positional arguments than
declared, in which every supplied positional argument satisfies its declared
type's accessor, fails with the missing-parameter error naming the helper and
the parameter declared at the first unfilled index (the count of supplied
arguments); the index itself is conveyed by that parameter's identity, the
error message interpolating only the helper and parameter names. -/
theorem c2_missing_parameter_amended (spec : HelperSpec) (inv : HelperInvocation)
    (p : PosParam) (hk : spec.positional.get? inv.params.length = some p)
    (hcoerce : ∀ j pj v, spec.positional.get? j = some pj → inv.params.get? j = some v →
      (as_json_value v pj.tpe).isSome = true) :
    callInner spec inv = .error (.missingParameter spec.name p.name) := by
  apply callInner_error_of_pos
  apply bindPositionals_error_at spec.positional 0 inv.params.length p
  · exact hk
  · rw [errOf_eq_some, Nat.zero_add]
    unfold posStep
    rw [List.get?_eq_none.mpr (Nat.le_refl _)]
  · intro j pj hj hgj
    rw [Nat.zero_add]
    have hv : inv.params.get? j = some (inv.params.get ⟨j, hj⟩) := List.get?_eq_get hj
    have hc := hcoerce j pj (inv.params.get ⟨j, hj⟩) hgj hv
    rw [Option.isSome_iff_exists] at hc
    obtain ⟨tv, htv⟩ := hc
    rw [errOf_eq_none]
    refine ⟨tv, ?_⟩
    simp only [posStep, hv, htv]

/-- Witness for the amended C2: one well-typed argument supplied to a helper
declaring two parameters; the invocation fails with the missing-parameter
error for `y`, the parameter at the first unfilled index 1. -/
theorem c2_missing_parameter_witness :
    c2Spec.positional.get? c2InvOk.params.length = some ⟨"y", Tpe.u64⟩ ∧
    callInner c2Spec c2InvOk = .error (.missingParameter "is_above" "y") := by
  refine ⟨rfl, c2_missing_parameter_amended c2Spec c2InvOk ⟨"y", Tpe.u64⟩ rfl ?_⟩
  intro j pj v h1 h2
  cases j with
  | zero =>
    simp only [c2Spec, List.get?, Option.some.injEq] at h1
    simp only [c2InvOk, List.get?, Option.some.injEq] at h2
    cases h1
    cases h2
    rfl
  | succ j' =>
    exact absurd h2 (by cases j' <;> simp [c2InvOk, List.get?])

/-! ### C6: positional type mismatches -/

/-- C6 counterexample: the claim says that for every declared positional
parameter whose supplied argument fails the declared type's accessor the
invocation fails with a `TypeMismatch` naming that parameter.  Here both
supplied arguments of `h6` fail the `u64` accessor, and the invocation's
error names `x` only — for the second offending parameter `y` the claim is
false. -/
theorem c6_type_mismatch_counterexample :
    c6Inv.params.get? 1 = some (JsonValue.str "b") ∧
    as_json_value (JsonValue.str "b") Tpe.u64 = none ∧
    callInner c6Spec c6Inv =
      .error (.typeMismatch "h6" "x" "u64" (JsonValue.str "a") c6Inv.params) ∧
    ∀ ts val ap, callInner c6Spec c6Inv ≠ .error (.typeMismatch "h6" "y" ts val ap) := by
  refine ⟨rfl, rfl, rfl, ?_⟩
  intro ts val ap hc
  rw [show callInner c6Spec c6Inv =
    .error (.typeMismatch "h6" "x" "u64" (JsonValue.str "a") c6Inv.params) from rfl] at hc
  simp only [Except.error.injEq, RenderError.typeMismatch.injEq] at hc
  exact absurd hc.2.1 (by decide)

/-- C6 (amended): for the first declared positional parameter (in declaration
order) whose supplied argument fails the declared type's accessor — i.e.
provided every earlier positional step succeeds — the invocation fails with
the type-mismatch error naming that parameter, carrying the raw offending
dynamic value and the full list of supplied parameters. -/
theorem c6_type_mismatch_amended (spec : HelperSpec) (inv : HelperInvocation)
    (i : Nat) (p : PosParam) (v : JsonValue)
    (hp : spec.positional.get? i = some p) (hv : inv.params.get? i = some v)
    (hfail : as_json_value v p.tpe = none)
    (hpre : ∀ j pj, j < i → spec.positional.get? j = some pj →
      errOf (posStep spec.name inv pj j) = none) :
    callInner spec inv =
      .error (.typeMismatch spec.name p.name (tpeName p.tpe) v inv.params) := by
  apply callInner_error_of_pos
  apply bindPositionals_error_at spec.positional 0 i p
  · exact hp
  · rw [errOf_eq_some, Nat.zero_add]
    simp only [posStep, hv, hfail]
  · intro j pj hj hgj
    rw [Nat.zero_add]
    exact hpre j pj hj hgj

/-- Witness for the amended C6: the first argument of `h6` binds, the second
fails the `u64` accessor, and the invocation fails with the type-mismatch
error naming `y` and carrying the raw value and all supplied parameters. -/
theorem c6_type_mismatch_witness :
    c6Spec.positional.get? 1 = some ⟨"y", Tpe.u64⟩ ∧
    c6InvSnd.params.get? 1 = some (JsonValue.str "b") ∧
    as_json_value (JsonValue.str "b") Tpe.u64 = none ∧
    callInner c6Spec c6InvSnd =
      .error (.typeMismatch "h6" "y" "u64" (JsonValue.str "b") c6InvSnd.params) := by
  refine ⟨rfl, rfl, rfl,
    c6_type_mismatch_amended c6Spec c6InvSnd 1 ⟨"y", Tpe.u64⟩ (JsonValue.str "b")
      rfl rfl rfl ?_⟩
  intro j pj hj hgj
  cases j with
  | zero =>
    simp only [c6Spec, List.get?, Option.some.injEq] at hgj
    cases hgj
    rfl
  | succ j' => exact absurd hj (by omega)

/-! ### C7: hash type mismatches -/

/-- C7 counterexample: the claim says every supplied named argument failing
its declared accessor makes the invocation fail with `HashTypeMismatch`.
Here `h7`'s supplied hash argument `compare="b"` fails the `u64` accessor,
but the positional argument `"a"` also fails its accessor, and positional
binding runs first: the invocation fails with the positional `TypeMismatch`,
and no `HashTypeMismatch` is ever produced. -/
theorem c7_hash_type_mismatch_counterexample :
    c7Inv.hashGet "compare" = some (JsonValue.str "b") ∧
    as_json_value (JsonValue.str "b") Tpe.u64 = none ∧
    callInner c7Spec c7Inv =
      .error (.typeMismatch "h7" "x" "u64" (JsonValue.str "a") c7Inv.params) ∧
    ∀ a b c d e, callInner c7Spec c7Inv ≠ .error (.hashTypeMismatch a b c d e) := by
  refine ⟨rfl, rfl, rfl, ?_⟩
  intro a b c d e hc
  rw [show callInner c7Spec c7Inv =
    .error (.typeMismatch "h7" "x" "u64" (JsonValue.str "a") c7Inv.params) from rfl] at hc
  simp only [Except.error.injEq] at hc
  exact RenderError.noConfusion hc

/-- C7 (amended): when the positional phase succeeds and every earlier
declared named parameter's step succeeds, a supplied named argument that
fails its declared type's accessor makes the invocation fail with the
hash-type-mismatch error carrying the helper name, the hash parameter name,
the spelled expected type, the raw offending value, and the full set of
supplied hash arguments. -/
theorem c7_hash_type_mismatch_amended (spec : HelperSpec) (inv : HelperInvocation)
    (pre post : List HashParam) (hp : HashParam) (v : JsonValue)
    (hspec : spec.hashParams = pre ++ hp :: post)
    (hsup : inv.hashGet hp.name = some v)
    (hfail : as_json_value v hp.tpe = none)
    (hpos : ∃ l, bindPositionals spec.name inv spec.positional 0 = .ok l)
    (hpre : ∀ hp' ∈ pre, errOf (bindOneHash spec.name inv hp') = none) :
    callInner spec inv =
      .error (.hashTypeMismatch spec.name hp.name (tpeName hp.tpe) v inv.hash) := by
  obtain ⟨l, hl⟩ := hpos
  refine callInner_error_of_hash hl ?_
  rw [hspec]
  refine bindHashes_error_at pre hp post _ hpre ?_
  simp only [bindOneHash, hsup, hfail]

/-- Witness for the amended C7: a helper with no positional parameters and
one hash parameter, supplied with a hash argument failing the `u64`
accessor; the invocation fails with the hash-type-mismatch error carrying
all five data. -/
theorem c7_hash_type_mismatch_witness :
    c7wInv.hashGet "compare" = some (JsonValue.str "b") ∧
    as_json_value (JsonValue.str "b") Tpe.u64 = none ∧
    callInner c7wSpec c7wInv =
      .error (.hashTypeMismatch "h7w" "compare" "u64" (JsonValue.str "b") c7wInv.hash) := by
  refine ⟨rfl, rfl,
    c7_hash_type_mismatch_amended c7wSpec c7wInv [] []
      ⟨"compare", Tpe.u64, JsonValue.num (.posInt 10)⟩ (JsonValue.str "b")
      rfl rfl rfl ⟨[], rfl⟩ ?_⟩
  intro hp' hmem
  exact absurd hmem (List.not_mem_nil hp')

/-! ### C9: the first binding failure wins -/

/-- A step's success value is `some` exactly when the step succeeded with it. -/
theorem okOf_eq_some {α : Type} {x : Except RenderError α} {a : α} :
    okOf x = some a ↔ x = .ok a := by
  cases x <;> simp [okOf]

/-- A step's success value is `none` exactly when the step failed. -/
theorem okOf_eq_none {α : Type} {x : Except RenderError α} :
    okOf x = none ↔ ∃ e, x = .error e := by
  cases x <;> simp [okOf]

/-- The first failure of a list starting with a failure. -/
theorem firstSome_cons_some (e : RenderError) (l : List (Option RenderError)) :
    firstSome (some e :: l) = some e := by
  simp [firstSome]

/-- The first failure of a list starting with a success. -/
theorem firstSome_cons_none (l : List (Option RenderError)) :
    firstSome (none :: l) = firstSome l := by
  simp [firstSome]

/-- A failure in the first phase is the first failure overall. -/
theorem firstSome_append_of_some {a : List (Option RenderError)} {e : RenderError}
    (h : firstSome a = some e) (b : List (Option RenderError)) :
    firstSome (a ++ b) = some e := by
  unfold firstSome at h ⊢
  rw [List.filterMap_append]
  cases hfa : List.filterMap id a with
  | nil => rw [hfa] at h; exact absurd h (by simp)
  | cons x t =>
    rw [hfa] at h
    simp only [List.head?, Option.some.injEq] at h
    cases h
    rfl

/-- With a fully successful first phase, the first failure overall is the
second phase's. -/
theorem firstSome_append_of_none {a : List (Option RenderError)}
    (h : firstSome a = none) (b : List (Option RenderError)) :
    firstSome (a ++ b) = firstSome b := by
  unfold firstSome at h ⊢
  rw [List.filterMap_append]
  rw [List.head?_eq_none_iff] at h
  rw [h, List.nil_append]

/-- The positional phase's outcome is the first failure among its steps. -/
theorem errOf_bindPositionals (h : String) (inv : HelperInvocation) :
    ∀ (ps : List PosParam) (idx : Nat),
    errOf (bindPositionals h inv ps idx) = firstSome (posErrs h inv ps idx) := by
  intro ps
  induction ps with
  | nil => intro idx; rfl
  | cons p rest ih =>
    intro idx
    unfold bindPositionals posErrs
    cases hstep : posStep h inv p idx with
    | error e => simp [errOf, firstSome_cons_some]
    | ok tv =>
      simp only [errOf, firstSome_cons_none]
      cases hrest : bindPositionals h inv rest (idx + 1) with
      | error e =>
        have hi := ih (idx + 1)
        rw [hrest] at hi
        simpa [errOf] using hi
      | ok tvs =>
        have hi := ih (idx + 1)
        rw [hrest] at hi
        simpa [errOf] using hi

/-- The hash phase's outcome is the first failure among its steps. -/
theorem errOf_bindHashes (h : String) (inv : HelperInvocation) :
    ∀ (hps : List HashParam),
    errOf (bindHashes h inv hps) =
      firstSome (hps.map (fun hp => errOf (bindOneHash h inv hp))) := by
  intro hps
  induction hps with
  | nil => rfl
  | cons hp rest ih =>
    unfold bindHashes
    rw [List.map_cons]
    cases hstep : bindOneHash h inv hp with
    | error e => simp [errOf, firstSome_cons_some]
    | ok b =>
      simp only [errOf, firstSome_cons_none]
      cases hrest : bindHashes h inv rest with
      | error e =>
        rw [hrest] at ih
        simpa [errOf] using ih
      | ok bs =>
        rw [hrest] at ih
        simpa [errOf] using ih

/-- The whole binding pipeline's outcome is the first failure among all of
its steps, positional steps first, then hash steps in declaration order. -/
theorem errOf_bindEnv (spec : HelperSpec) (inv : HelperInvocation) :
    errOf (bindEnv spec inv) = firstSome (stepErrs spec inv) := by
  unfold stepErrs
  have hp := errOf_bindPositionals spec.name inv spec.positional 0
  cases hpos : bindPositionals spec.name inv spec.positional 0 with
  | error e =>
    rw [hpos] at hp
    simp only [errOf] at hp
    rw [firstSome_append_of_some hp.symm]
    simp only [bindEnv, hpos, errOf]
  | ok pos =>
    rw [hpos] at hp
    simp only [errOf] at hp
    rw [firstSome_append_of_none hp.symm]
    have hh := errOf_bindHashes spec.name inv spec.hashParams
    cases hhash : bindHashes spec.name inv spec.hashParams with
    | error e =>
      rw [hhash] at hh
      simp only [errOf] at hh
      simp only [bindEnv, hpos, hhash, errOf]
      exact hh
    | ok hs =>
      rw [hhash] at hh
      simp only [errOf] at hh
      simp only [bindEnv, hpos, hhash, errOf]
      exact hh

/-- C9: when the binding pipeline fails, that first failure is the whole
invocation's error result: the error returned is the first failing step's
(among all positional and hash steps in program order), no success is
produced, and the outcome is independent of the helper body — the body is
never consulted on a failing invocation. -/
theorem c9_first_failure_wins (spec : HelperSpec) (inv : HelperInvocation)
    (e : RenderError) (herr : bindEnv spec inv = .error e) :
    (∀ b, callInner
        ⟨spec.name, spec.positional, spec.hashParams, spec.hasArgs, spec.hasKwargs, b⟩
        inv = .error e) ∧
    firstSome (stepErrs spec inv) = some e := by
  constructor
  · intro b
    have hb : bindEnv
        ⟨spec.name, spec.positional, spec.hashParams, spec.hasArgs, spec.hasKwargs, b⟩
        inv = bindEnv spec inv := rfl
    unfold callInner
    rw [hb, herr]
  · have h := errOf_bindEnv spec inv
    rw [herr] at h
    simp only [errOf] at h
    exact h.symm

/-- Witness for C9: a helper declaring one parameter, invoked with none;
binding fails with the missing-parameter error, that error is the
invocation's result for any body, and it is the first step failure. -/
theorem c9_first_failure_wins_witness :
    bindEnv c9Spec c9Inv = .error (.missingParameter "h9" "x") ∧
    callInner ⟨"h9", [⟨"x", Tpe.u64⟩], [], false, false, fun _ => JsonValue.bool true⟩
      c9Inv = .error (.missingParameter "h9" "x") ∧
    firstSome (stepErrs c9Spec c9Inv) = some (.missingParameter "h9" "x") :=
  ⟨rfl,
    (c9_first_failure_wins c9Spec c9Inv (.missingParameter "h9" "x") rfl).1
      (fun _ => JsonValue.bool true),
    (c9_first_failure_wins c9Spec c9Inv (.missingParameter "h9" "x") rfl).2⟩

/-! ### C4: extra positional arguments are ignored by binding -/

/-- A positional step whose index lies within the declared-length prefix
reads only that prefix: its success value is unaffected by whatever trails
the prefix. -/
theorem posStep_okOf_agree {h : String} {hash : List (String × JsonValue)}
    {ps e1 e2 : List JsonValue} {p : PosParam} {idx : Nat} (hidx : idx < ps.length) :
    okOf (posStep h ⟨ps ++ e1, hash⟩ p idx) = okOf (posStep h ⟨ps ++ e2, hash⟩ p idx) := by
  unfold posStep
  rw [show (⟨ps ++ e1, hash⟩ : HelperInvocation).params = ps ++ e1 from rfl]
  rw [show (⟨ps ++ e2, hash⟩ : HelperInvocation).params = ps ++ e2 from rfl]
  rw [List.get?_append hidx, List.get?_append hidx]
  cases hv : ps.get? idx with
  | none => rfl
  | some v =>
    cases hc : as_json_value v p.tpe with
    | none => simp [hc, okOf]
    | some tv => simp [hc, okOf]

/-- The positional phase's success values depend only on the first
`declared-count` supplied arguments: with the same prefix, any two
continuations produce the same success value (or both fail). -/
theorem bindPositionals_okOf_agree {h : String} {hash : List (String × JsonValue)}
    {ps e1 e2 : List JsonValue} :
    ∀ (pl : List PosParam) (idx : Nat), idx + pl.length ≤ ps.length →
    okOf (bindPositionals h ⟨ps ++ e1, hash⟩ pl idx) =
      okOf (bindPositionals h ⟨ps ++ e2, hash⟩ pl idx) := by
  intro pl
  induction pl with
  | nil => intro idx _; rfl
  | cons p rest ih =>
    intro idx hle
    have hidx : idx < ps.length := by
      simp only [List.length_cons] at hle
      omega
    have hstep := @posStep_okOf_agree h hash ps e1 e2 p idx hidx
    unfold bindPositionals
    cases h1 : posStep h ⟨ps ++ e1, hash⟩ p idx with
    | error e =>
      rw [h1] at hstep
      simp only [okOf] at hstep
      obtain ⟨e', h2⟩ := okOf_eq_none.mp hstep.symm
      rw [h2]
      simp [okOf]
    | ok tv =>
      rw [h1] at hstep
      simp only [okOf] at hstep
      have h2 : posStep h ⟨ps ++ e2, hash⟩ p idx = .ok tv :=
        okOf_eq_some.mp hstep.symm
      rw [h2]
      have hrec := ih (idx + 1) (by simp only [List.length_cons] at hle; omega)
      cases hr1 : bindPositionals h ⟨ps ++ e1, hash⟩ rest (idx + 1) with
      | error e =>
        rw [hr1] at hrec
        simp only [okOf] at hrec
        obtain ⟨e', hr2⟩ := okOf_eq_none.mp hrec.symm
        rw [hr2]
        simp [okOf]
      | ok tvs =>
        rw [hr1] at hrec
        simp only [okOf] at hrec
        have hr2 : bindPositionals h ⟨ps ++ e2, hash⟩ rest (idx + 1) = .ok tvs :=
          okOf_eq_some.mp hrec.symm
        rw [hr2]

/-- The hash phase never reads the positional arguments. -/
theorem bindHashes_params_irrel {h : String} {p1 p2 : List JsonValue}
    {hs : List (String × JsonValue)} :
    ∀ hps, bindHashes h ⟨p1, hs⟩ hps = bindHashes h ⟨p2, hs⟩ hps := by
  intro hps
  induction hps with
  | nil => rfl
  | cons hp rest ih =>
    unfold bindHashes
    have hone : bindOneHash h ⟨p1, hs⟩ hp = bindOneHash h ⟨p2, hs⟩ hp := rfl
    rw [hone, ih]

/-- C4: supplying more positional arguments than declared neither validates
the extras nor fails on them: the positional phase's success values are
determined by the declared-length prefix alone (any two continuations of the
same prefix succeed with the same bound values or both fail), the whole
invocation's success result does not depend on the extras when no `*args`
capture is declared, and when one is declared the extras are visible in the
capture — and only there. -/
theorem c4_extra_positionals_ignored (spec : HelperSpec)
    (ps extras1 extras2 : List JsonValue) (hash : List (String × JsonValue))
    (hlen : ps.length = spec.positional.length) :
    (∀ l, bindPositionals spec.name ⟨ps ++ extras1, hash⟩ spec.positional 0 = .ok l ↔
          bindPositionals spec.name ⟨ps ++ extras2, hash⟩ spec.positional 0 = .ok l) ∧
    (spec.hasArgs = false → ∀ v,
      callInner spec ⟨ps ++ extras1, hash⟩ = .ok v ↔
      callInner spec ⟨ps ++ extras2, hash⟩ = .ok v) ∧
    (spec.hasArgs = true → ∀ env, bindEnv spec ⟨ps ++ extras1, hash⟩ = .ok env →
      env.args = some (ps ++ extras1)) := by
  have hagree := @bindPositionals_okOf_agree spec.name hash ps extras1 extras2
    spec.positional 0 (by omega)
  have hokiff : ∀ l,
      bindPositionals spec.name ⟨ps ++ extras1, hash⟩ spec.positional 0 = .ok l ↔
      bindPositionals spec.name ⟨ps ++ extras2, hash⟩ spec.positional 0 = .ok l := by
    intro l
    rw [← okOf_eq_some, ← okOf_eq_some, hagree]
  refine ⟨hokiff, ?_, ?_⟩
  · intro hnoargs v
    unfold callInner bindEnv
    cases h1 : bindPositionals spec.name ⟨ps ++ extras1, hash⟩ spec.positional 0 with
    | error e =>
      cases h2 : bindPositionals spec.name ⟨ps ++ extras2, hash⟩ spec.positional 0 with
      | error e' => simp
      | ok l =>
        exact absurd ((hokiff l).mpr h2) (by rw [h1]; simp)
    | ok l =>
      have h2 := (hokiff l).mp h1
      rw [h2]
      rw [show bindHashes spec.name ⟨ps ++ extras1, hash⟩ spec.hashParams =
            bindHashes spec.name ⟨ps ++ extras2, hash⟩ spec.hashParams from
            bindHashes_params_irrel spec.hashParams]
      cases h3 : bindHashes spec.name ⟨ps ++ extras2, hash⟩ spec.hashParams with
      | error e => simp
      | ok hs => simp [hnoargs]
  · intro hargs env henv
    obtain ⟨-, -, ha, -⟩ := bindEnv_ok henv
    rw [hargs] at ha
    simpa using ha

/-- Witness for C4: a helper declaring one `u64` parameter, invoked with a
well-typed first argument plus an extra argument of an arbitrary shape; the
extra is not validated and the invocation succeeds exactly as without it. -/
theorem c4_extra_positionals_ignored_witness :
    List.length [JsonValue.num (.posInt 1)] = c4Spec.positional.length ∧
    c4Spec.hasArgs = false ∧
    callInner c4Spec ⟨[JsonValue.num (.posInt 1), JsonValue.str "weird"], []⟩ =
      .ok (some (.derived JsonValue.null)) :=
  ⟨rfl, rfl,
    ((c4_extra_positionals_ignored c4Spec [JsonValue.num (.posInt 1)]
        [JsonValue.str "weird"] [] [] rfl).2.1 rfl
      (some (.derived JsonValue.null))).mpr rfl⟩

/-! ### C1: the `**kwargs` capture iterates in ascending name order -/

/-- The order used by the map is exactly the lexicographic string order. -/
theorem string_data_lt_iff {a b : String} : a.data < b.data ↔ a < b :=
  String.lt_iff_toList_lt.symm

/-- Every entry of an insertion is the inserted pair or an original entry. -/
theorem mem_btreeInsert {k : String} {v : JsonValue} :
    ∀ {l : List (String × JsonValue)} {x : String × JsonValue},
    x ∈ btreeInsert k v l → x = (k, v) ∨ x ∈ l := by
  intro l
  induction l with
  | nil => intro x hx; simp [btreeInsert] at hx; exact Or.inl hx
  | cons kv rest ih =>
    obtain ⟨k', v'⟩ := kv
    intro x hx
    unfold btreeInsert at hx
    by_cases h1 : k.data < k'.data
    · rw [if_pos h1] at hx
      rcases List.mem_cons.mp hx with hx | hx
      · exact Or.inl hx
      · exact Or.inr hx
    · rw [if_neg h1] at hx
      by_cases h2 : k = k'
      · rw [if_pos h2] at hx
        rcases List.mem_cons.mp hx with hx | hx
        · exact Or.inl hx
        · exact Or.inr (List.mem_cons_of_mem _ hx)
      · rw [if_neg h2] at hx
        rcases List.mem_cons.mp hx with hx | hx
        · rw [hx]
          exact Or.inr (List.mem_cons_self _ _)
        · rcases ih hx with hx' | hx'
          · exact Or.inl hx'
          · exact Or.inr (List.mem_cons_of_mem _ hx')

/-- Insertion preserves strict ascending ordering of the keys. -/
theorem btreeInsert_pairwise {k : String} {v : JsonValue} :
    ∀ {l : List (String × JsonValue)},
    l.Pairwise (fun a b => a.1 < b.1) →
    (btreeInsert k v l).Pairwise (fun a b => a.1 < b.1) := by
  intro l
  induction l with
  | nil => intro _; simp [btreeInsert]
  | cons kv rest ih =>
    obtain ⟨k', v'⟩ := kv
    intro hl
    rw [List.pairwise_cons] at hl
    obtain ⟨hk', hrest⟩ := hl
    unfold btreeInsert
    by_cases h1 : k.data < k'.data
    · rw [if_pos h1]
      have hklt : k < k' := string_data_lt_iff.mp h1
      refine List.Pairwise.cons ?_ (List.Pairwise.cons hk' hrest)
      intro x hx
      rcases List.mem_cons.mp hx with hx | hx
      · rw [hx]
        exact hklt
      · exact lt_trans hklt (hk' x hx)
    · rw [if_neg h1]
      by_cases h2 : k = k'
      · rw [if_pos h2]
        refine List.Pairwise.cons ?_ hrest
        intro x hx
        rw [h2]
        exact hk' x hx
      · rw [if_neg h2]
        have h3 : k' < k := by
          rcases lt_trichotomy k k' with h | h | h
          · exact absurd (string_data_lt_iff.mpr h) h1
          · exact absurd h h2
          · exact h
        refine List.Pairwise.cons ?_ (ih hrest)
        intro x hx
        rcases mem_btreeInsert hx with hx' | hx'
        · rw [hx']
          exact h3
        · exact hk' x hx'

/-- Inserting a fresh key is, up to order, just consing the pair. -/
theorem btreeInsert_perm_of_fresh {k : String} {v : JsonValue} :
    ∀ {l : List (String × JsonValue)}, k ∉ l.map Prod.fst →
    (btreeInsert k v l).Perm ((k, v) :: l) := by
  intro l
  induction l with
  | nil => intro _; exact List.Perm.refl _
  | cons kv rest ih =>
    obtain ⟨k', v'⟩ := kv
    intro hk
    rw [List.map_cons, List.mem_cons] at hk
    push_neg at hk
    obtain ⟨hne, hrest⟩ := hk
    unfold btreeInsert
    by_cases h1 : k.data < k'.data
    · rw [if_pos h1]
    · rw [if_neg h1, if_neg hne]
      exact ((ih hrest).cons (k', v')).trans (List.Perm.swap (k, v) (k', v') rest)

/-- Folding insertions over entries whose keys are fresh and mutually
distinct permutes the accumulated map by appending those entries. -/
theorem foldl_btreeInsert_perm :
    ∀ (l acc : List (String × JsonValue)), (l.map Prod.fst).Nodup →
    (∀ k ∈ l.map Prod.fst, k ∉ acc.map Prod.fst) →
    (l.foldl (fun m kv => btreeInsert kv.1 kv.2 m) acc).Perm (acc ++ l) := by
  intro l
  induction l with
  | nil => intro acc _ _; simp
  | cons kv rest ih =>
    obtain ⟨k, v⟩ := kv
    intro acc hnd hdisj
    rw [List.map_cons, List.nodup_cons] at hnd
    obtain ⟨hknotin, hndrest⟩ := hnd
    rw [List.map_cons] at hdisj
    have hkacc : k ∉ acc.map Prod.fst := hdisj k (List.mem_cons_self _ _)
    have hperm1 : (btreeInsert k v acc).Perm ((k, v) :: acc) :=
      btreeInsert_perm_of_fresh hkacc
    have hkeys : ((btreeInsert k v acc).map Prod.fst).Perm (k :: acc.map Prod.fst) := by
      have := hperm1.map Prod.fst
      simpa using this
    have hdisj' : ∀ k' ∈ rest.map Prod.fst, k' ∉ (btreeInsert k v acc).map Prod.fst := by
      intro k' hk' hmem
      have hmem' : k' ∈ k :: acc.map Prod.fst := hkeys.subset hmem
      rcases List.mem_cons.mp hmem' with h | h
      · rw [h] at hk'
        exact hknotin hk'
      · exact hdisj k' (List.mem_cons_of_mem _ hk') h
    have hrec := ih (btreeInsert k v acc) hndrest hdisj'
    rw [List.foldl_cons]
    refine hrec.trans ?_
    refine (List.Perm.append_right rest hperm1).trans ?_
    rw [List.cons_append]
    exact List.perm_middle.symm

/-- The `**kwargs` map contains, up to order, exactly the supplied hash
entries (keys being distinct, no entry is overwritten). -/
theorem kwargsOf_perm (hash : List (String × JsonValue))
    (hnd : (hash.map Prod.fst).Nodup) : (kwargsOf hash).Perm hash := by
  have := foldl_btreeInsert_perm hash [] hnd (by simp)
  simpa [kwargsOf] using this

/-- The `**kwargs` map is strictly sorted by key. -/
theorem kwargsOf_pairwise (hash : List (String × JsonValue)) :
    (kwargsOf hash).Pairwise (fun a b => a.1 < b.1) := by
  unfold kwargsOf
  suffices h : ∀ (l acc : List (String × JsonValue)),
      acc.Pairwise (fun a b => a.1 < b.1) →
      (l.foldl (fun m kv => btreeInsert kv.1 kv.2 m) acc).Pairwise
        (fun a b => a.1 < b.1) by
    exact h hash [] (by simp)
  intro l
  induction l with
  | nil => intro acc hacc; exact hacc
  | cons kv rest ih =>
    intro acc hacc
    rw [List.foldl_cons]
    exact ih _ (btreeInsert_pairwise hacc)

/-- Two key-sorted association lists that are permutations of one another
are equal. -/
theorem sorted_key_perm_eq {l1 l2 : List (String × JsonValue)}
    (hp : l1.Perm l2)
    (h1 : l1.Pairwise (fun a b => a.1 < b.1))
    (h2 : l2.Pairwise (fun a b => a.1 < b.1)) : l1 = l2 := by
  have hanti : ∀ a b : String × JsonValue,
      (a.1 < b.1 ∨ a = b) → (b.1 < a.1 ∨ b = a) → a = b := by
    rintro a b (hab | hab) (hba | hba)
    · exact absurd hba (lt_asymm hab)
    · exact hba.symm
    · exact hab
    · exact hab
  haveI : IsAntisymm (String × JsonValue) (fun a b => a.1 < b.1 ∨ a = b) := ⟨hanti⟩
  have hs1 : l1.Sorted (fun a b => a.1 < b.1 ∨ a = b) := h1.imp fun h => Or.inl h
  have hs2 : l2.Sorted (fun a b => a.1 < b.1 ∨ a = b) := h2.imp fun h => Or.inl h
  exact List.eq_of_perm_of_sorted hp hs1 hs2

/-- C1: when a helper declares a `**kwargs` capture and binding succeeds,
the captured mapping is the supplied hash arguments re-collected into a
key-ordered map: it iterates in strictly ascending lexicographic order of
argument name, and it is identical for every order in which the named
arguments could have been supplied at the call site. -/
theorem c1_kwargs_sorted (spec : HelperSpec) (inv : HelperInvocation) (env : Env)
    (hkw : spec.hasKwargs = true) (hok : bindEnv spec inv = .ok env)
    (hnd : (inv.hash.map Prod.fst).Nodup) :
    env.kwargs = some (kwargsOf inv.hash) ∧
    (kwargsOf inv.hash).Pairwise (fun a b => a.1 < b.1) ∧
    ∀ hash', hash'.Perm inv.hash → kwargsOf hash' = kwargsOf inv.hash := by
  obtain ⟨-, -, -, hkwargs⟩ := bindEnv_ok hok
  rw [hkw] at hkwargs
  simp only [if_pos] at hkwargs
  refine ⟨hkwargs, kwargsOf_pairwise _, ?_⟩
  intro hash' hperm
  have hnd' : (hash'.map Prod.fst).Nodup := ((hperm.map Prod.fst).nodup_iff).mpr hnd
  exact sorted_key_perm_eq
    ((kwargsOf_perm hash' hnd').trans (hperm.trans (kwargsOf_perm inv.hash hnd).symm))
    (kwargsOf_pairwise _) (kwargsOf_pairwise _)

/-- Witness for C1: hash arguments supplied in the order `b`, `a` are
captured as the map `[a, b]`, sorted ascending, and supplying them in the
order `a`, `b` captures the identical map. -/
theorem c1_kwargs_sorted_witness :
    c1Spec.hasKwargs = true ∧
    bindEnv c1Spec c1Inv =
      .ok ⟨[], [], none, some [("a", JsonValue.bool true), ("b", JsonValue.null)]⟩ ∧
    (c1Inv.hash.map Prod.fst).Nodup ∧
    Env.kwargs ⟨[], [], none, some [("a", JsonValue.bool true), ("b", JsonValue.null)]⟩ =
      some (kwargsOf c1Inv.hash) ∧
    (kwargsOf c1Inv.hash).Pairwise (fun a b => a.1 < b.1) ∧
    kwargsOf [("a", JsonValue.bool true), ("b", JsonValue.null)] = kwargsOf c1Inv.hash := by
  have H := c1_kwargs_sorted c1Spec c1Inv
    ⟨[], [], none, some [("a", JsonValue.bool true), ("b", JsonValue.null)]⟩
    rfl rfl (by decide)
  exact ⟨rfl, rfl, by decide, H.1, H.2.1,
    H.2.2 [("a", JsonValue.bool true), ("b", JsonValue.null)]
      (List.Perm.swap ("b", JsonValue.null) ("a", JsonValue.bool true) [])⟩
